import Mathlib

/-!
Verification of the MyMatcha drama-recommendation core (src/app.py) against its
natural-language specification.  The data preparation, similarity index,
nearest-neighbour query, rating extraction and top-by-country query are embedded
as executable Lean definitions; machine floats are modelled by exact rationals
(the numeric values appearing in the claims are float-exact) and the real-valued
cosine similarity is modelled over `ℝ`.
-/

namespace MyMatcha

/-- A pandas cell as the code sees it: either a Python string or the float-NaN
missing-value marker that pandas uses for an absent field. -/
inductive Cell where
  | str (s : String)
  | na
deriving DecidableEq

/-- ASCII lowercasing, modelling Python `str.lower()` on the ASCII titles and
tags this dataset holds (`.str.lower()` / `.lower()` in app.py lines 38 and 73). -/
def lowerStr (s : String) : String :=
  String.mk (s.data.map Char.toLower)

/-- How a cell prints inside a Python f-string: a string prints itself, the
float NaN prints as "nan" (app.py line 38 formats the raw cells). -/
def cellFmt : Cell → String
  | .str s => s
  | .na => "nan"

/-- app.py lines 34–36: hyphens in Themes are replaced by spaces, but only when
the cell actually holds a string (the `isinstance(x, str)` guard); a missing
cell is passed through unchanged.  Python's single-character
`str.replace('-', ' ')` is a character-wise map. -/
def replaceHyphens : Cell → Cell
  | .str s => .str (String.mk (s.data.map fun c => if c == '-' then ' ' else c))
  | .na => .na

/-- app.py lines 37–40: the derived Tags field,
`f"{Summary} {Genres} {Themes}".lower()` computed after the Themes
hyphen-replacement pass. -/
def makeTags (summary genres themes : Cell) : String :=
  lowerStr (cellFmt summary ++ " " ++ cellFmt genres ++ " " ++ cellFmt (replaceHyphens themes))

/-- The tag rule exactly as the specification words it (spec section 4.1 /
claim C2): absent source fields are "treated as empty", i.e. contribute the
empty string to the lowercased concatenation.  Kept for comparison with
`makeTags`, which is the translation of the code. -/
def cellEmptyFmt : Cell → String
  | .str s => s
  | .na => ""

/-- The claimed tag derivation: like `makeTags` but an absent field contributes
the empty string. -/
def makeTagsClaim (summary genres themes : Cell) : String :=
  lowerStr (cellEmptyFmt summary ++ " " ++ cellEmptyFmt genres ++ " " ++
    cellEmptyFmt (replaceHyphens themes))

/-- Replace an absent cell by the literal string "nan" (what the f-string in
app.py line 38 actually inserts for a missing field). -/
def naToNanStr : Cell → Cell
  | .na => .str "nan"
  | c => c

/-! ### Stable sorting

Python's `sorted(..., key=..., reverse=True)` (app.py line 81) and, for the
claims that need it, a deterministic model of `DataFrame.sort_values`
(app.py line 109) are embedded as an insertion sort.  Python's sort is stable:
elements with equal keys keep their original relative order; insertion sort
with a non-strict comparison has exactly that property. -/

/-- Insert `a` into `l`, placing it before the first element `b` with
`le a b = true`. -/
def ordIns (le : α → α → Bool) (a : α) : List α → List α
  | [] => [a]
  | b :: l => if le a b then a :: b :: l else b :: ordIns le a l

/-- Stable insertion sort: the model of Python's stable `sorted`. -/
def isort (le : α → α → Bool) : List α → List α
  | [] => []
  | a :: l => ordIns le a (isort le l)

/-- Comparison used by `recommend`: descending by similarity value
(`key=lambda x: x[1]`, `reverse=True`, app.py line 81). -/
def simDesc (a b : Nat × ℚ) : Bool :=
  decide (b.2 ≤ a.2)

/-- `sorted(list(enumerate(distances)), reverse=True, key=lambda x: x[1])`
(app.py line 81): the full similarity row, enumerated and stably sorted by
similarity descending. -/
def rankAll (distances : List ℚ) : List (Nat × ℚ) :=
  isort simDesc distances.enum

/-- The ranking order claim C5 describes for the sorted similarity row:
strictly greater similarity first, ties broken by smaller original record
index (the tie order a stable sort over the enumeration produces). -/
def rankRel (a b : Nat × ℚ) : Prop :=
  b.2 < a.2 ∨ (a.2 = b.2 ∧ a.1 < b.1)

/-- app.py lines 73–77: index of the first record whose lowercased Title equals
the lowercased query (`newdf[newdf['Title'].str.lower() == drama_title.lower()]
.index`, then `[0]`); `none` when the filter is empty. -/
def queryIndex : List String → String → Option Nat
  | [], _ => none
  | s :: rest, t =>
    if lowerStr s == lowerStr t then some 0
    else (queryIndex rest t).map (· + 1)

/-- app.py lines 66–89, `recommend`: look the title up case-insensitively,
take the matched record's similarity row, stably sort its enumeration by
similarity descending, slice `[1:6]`, and map the surviving indices back to
titles.  The similarity matrix row is `sim[i]`; out-of-range accesses (which
cannot happen for the square matrix the app builds) default to `[]` / `""`.
The `try/except` wrapper is control flow for faults of the underlying
libraries and has no counterpart in this total model. -/
def recommend (titles : List String) (sim : List (List ℚ)) (t : String) : List String :=
  match queryIndex titles t with
  | none => []
  | some i =>
    (((rankAll (sim.getD i [])).drop 1).take 5).map (fun p => titles.getD p.1 "")

/-- The nearest-neighbour query as claim C5 words it: rank all OTHER records
(the queried index excluded up front) by similarity descending, ties by
original index ascending, and return the top five titles.  Kept for comparison
with `recommend`, which slices `[1:6]` off the sort of ALL records instead. -/
def recommendClaim (titles : List String) (sim : List (List ℚ)) (t : String) : List String :=
  match queryIndex titles t with
  | none => []
  | some i =>
    ((isort simDesc (((sim.getD i []).enum).filter (fun p => p.1 != i))).take 5).map
      (fun p => titles.getD p.1 "")

/-! ### Rating extraction (app.py lines 92–98) -/

/-- Characters removed by Python `str.strip()`, restricted to the whitespace
characters that occur in rating strings: ASCII whitespace plus the vertical
tab, form feed and the no-break space (U+00A0), all of which Python treats as
whitespace. -/
def pyStripChar (c : Char) : Bool :=
  c == ' ' || c == '\t' || c == '\n' || c == '\r' ||
    c == '\x0B' || c == '\x0C' || c == '\xA0'

/-- Python `str.strip()`: drop leading and trailing whitespace. -/
def pyStrip (l : List Char) : List Char :=
  (((l.dropWhile pyStripChar).reverse).dropWhile pyStripChar).reverse

/-- `rating.replace('\xa0', ' ')`: a single-character replace is a
character-wise map. -/
def replNbsp (l : List Char) : List Char :=
  l.map fun c => if c == '\xA0' then ' ' else c

/-- Value of a run of decimal digits. -/
def digitsToNat (l : List Char) : Nat :=
  l.foldl (fun n c => 10 * n + (c.toNat - 48)) 0

/-- Parse the regex match `\d+(\.\d+)?` anchored at a position known to start
with a digit: the greedy integer part, then an optional fraction which
requires a dot followed by at least one digit (otherwise the optional group
matches empty, exactly as the regex backtracks).  `float(...)` of the matched
text is exact here, so the value is returned as a rational. -/
def parseNumAt (l : List Char) : ℚ :=
  let ds := l.takeWhile Char.isDigit
  let rest := l.dropWhile Char.isDigit
  match rest with
  | '.' :: r =>
    let fs := r.takeWhile Char.isDigit
    if fs.isEmpty then (digitsToNat ds : ℚ)
    else (digitsToNat ds : ℚ) + (digitsToNat fs : ℚ) / ((10 : ℚ) ^ fs.length)
  | _ => (digitsToNat ds : ℚ)

/-- `re.search(r'(\d+(\.\d+)?)', rating)`: scan for the leftmost digit and
parse the number starting there; `none` when the string has no digit.
`\d` is modelled as the ASCII digits (the dataset's ratings are ASCII). -/
def scanNumber : List Char → Option ℚ
  | [] => none
  | c :: cs => if c.isDigit then some (parseNumAt (c :: cs)) else scanNumber cs

/-- app.py lines 93–97, the string branch of `extract_numeric_rating`:
strip, normalize no-break spaces to spaces, then take the first number. -/
def extractNumericRatingStr (s : String) : Option ℚ :=
  scanNumber (replNbsp (pyStrip s.data))

/-- app.py lines 92–98, `extract_numeric_rating`: the numeric path runs only
under `isinstance(rating, str)`; every non-string cell (e.g. the NaN left by a
missing value) falls through to `return None`. -/
def extractNumericRating : Cell → Option ℚ
  | .str s => extractNumericRatingStr s
  | .na => none

/-! ### Top dramas by country (app.py lines 105–113) -/

/-- `p` is an initial run of `l`. -/
def leadsWith : List Char → List Char → Bool
  | [], _ => true
  | _ :: _, [] => false
  | c :: p, d :: l => c == d && leadsWith p l

/-- `p` occurs contiguously inside `l`. -/
def listContains (p : List Char) : List Char → Bool
  | [] => p.isEmpty
  | c :: t => leadsWith p (c :: t) || listContains p t

/-- Case-insensitive substring test on strings. -/
def strContainsCI (s pat : String) : Bool :=
  listContains (lowerStr pat).data (lowerStr s).data

/-- `dataframe['Country'].str.contains(country_name, case=False, na=False)`
(app.py line 106): a missing Country is rejected (`na=False`); a string
Country is tested for the country name as a case-insensitive substring (the
pattern is technically a regex, which for the plain country names used is
substring search). -/
def countryContains (c : Cell) (name : String) : Bool :=
  match c with
  | .na => false
  | .str s => strContainsCI s name

/-- One row of the rating dataframe as the top-by-country query sees it:
the Title, the raw Country cell, and the already-derived `Numeric_Rating`
column (app.py line 101 fills it with `extract_numeric_rating` of Rating). -/
structure DRow where
  title : String
  country : Cell
  numericRating : Option ℚ
deriving DecidableEq

/-- `drop_duplicates(subset='Title')` keep-first semantics (app.py lines 30
and 107): keep each row whose exact Title string has not been seen yet.
The comparison is case-sensitive on the exact Title. -/
def dedupAux (seen : List String) : List DRow → List DRow
  | [] => []
  | r :: rs =>
    if r.title ∈ seen then dedupAux seen rs
    else r :: dedupAux (r.title :: seen) rs

/-- Deduplicate by Title, keeping the first occurrence, preserving order. -/
def dedupByTitle (l : List DRow) : List DRow :=
  dedupAux [] l

/-- Sort key access: the rating of a row known to have one (rows without a
rating are filtered out before sorting; the default is never read there). -/
def ratingD (r : DRow) : ℚ :=
  r.numericRating.getD 0

/-- Comparison for `sort_values(by='Numeric_Rating', ascending=False)`:
rating descending.  `sort_values`' default algorithm leaves the order of
tied rows unspecified; the model fixes a deterministic stable sort, and no
claim below depends on tie order. -/
def ratingDesc (a b : DRow) : Bool :=
  decide (ratingD b ≤ ratingD a)

/-- app.py lines 105–113, `get_top_dramas_by_country`: filter by country
substring, deduplicate by Title, drop rows with no numeric rating, sort by
rating descending, take the first `topN`. -/
def getTopDramasByCountry (df : List DRow) (countryName : String) (topN : Nat) : List DRow :=
  (isort ratingDesc
    ((dedupByTitle (df.filter (fun r => countryContains r.country countryName))).filter
      (fun r => r.numericRating.isSome))).take topN

/-- The same pipeline in the step order the specification states (section 4.5,
quoted by claim C3): records with no parseable rating are excluded BEFORE
deduplicating by Title.  Kept for comparison with `getTopDramasByCountry`,
which deduplicates first. -/
def getTopDramasSpecOrder (df : List DRow) (countryName : String) (topN : Nat) : List DRow :=
  (isort ratingDesc
    (dedupByTitle ((df.filter (fun r => countryContains r.country countryName)).filter
      (fun r => r.numericRating.isSome)))).take topN

/-! ### Similarity index (app.py lines 55–57) -/

/-- Whitespace tokenization of a tag string (the tags fed to the vectorizer
are space-joined stemmed tokens, app.py lines 44–52). -/
def tokenizeAux (cur : List Char) : List Char → List (List Char)
  | [] => if cur.isEmpty then [] else [cur.reverse]
  | c :: cs =>
    if c == ' ' then
      if cur.isEmpty then tokenizeAux [] cs else cur.reverse :: tokenizeAux [] cs
    else tokenizeAux (c :: cur) cs

/-- Split a string into its whitespace-separated tokens. -/
def tokenize (s : String) : List String :=
  (tokenizeAux [] s.data).map String.mk

/-- Number of occurrences of a term among the tokens. -/
def termCount (tok : String) (toks : List String) : Nat :=
  (toks.filter (fun t => t == tok)).length

/-- The `CountVectorizer` term-frequency vector of a tag string over a given
vocabulary (app.py lines 55–56): component `k` counts the occurrences of the
`k`-th vocabulary term among the tokens.  The vocabulary (most frequent
non-stopword terms, capped at the record count) is a parameter; a record
"contains a non-stopword vocabulary term" exactly when this vector is
nonzero. -/
def tfVec (vocab : List String) (tags : String) : Fin vocab.length → ℚ :=
  fun k => (termCount (vocab.get k) (tokenize tags) : ℚ)

/-- Dot product of two term-frequency vectors. -/
def dotp {n : Nat} (u v : Fin n → ℚ) : ℚ :=
  (Finset.univ : Finset (Fin n)).sum (fun i => u i * v i)

/-- `sklearn.metrics.pairwise.cosine_similarity` of two term-frequency
vectors (app.py line 57): the dot product divided by the product of the
Euclidean norms, with the zero-norm case guarded — sklearn normalizes rows
and maps a zero row to the zero vector, so every pair involving a zero
vector gets similarity 0 rather than NaN. -/
noncomputable def cosineSim {n : Nat} (u v : Fin n → ℚ) : ℝ :=
  if u = 0 ∨ v = 0 then 0
  else ((dotp u v : ℚ) : ℝ) /
    (Real.sqrt ((dotp u u : ℚ) : ℝ) * Real.sqrt ((dotp v v : ℚ) : ℝ))

/-- Entry `(i, j)` of the all-pairs cosine similarity matrix over the derived
tag strings (app.py line 57); indices address the deduplicated record order. -/
noncomputable def simMatrix (vocab : List String) (tagsList : List String) (i j : Nat) : ℝ :=
  cosineSim (tfVec vocab (tagsList.getD i "")) (tfVec vocab (tagsList.getD j ""))

/-! ### Properties of the stable insertion sort -/

theorem ordIns_perm {α : Type} (le : α → α → Bool) (a : α) :
    ∀ l : List α, List.Perm (ordIns le a l) (a :: l) := by
  intro l
  induction l with
  | nil => simp [ordIns]
  | cons b t ih =>
    by_cases h : le a b = true
    · simp [ordIns, h]
    · rw [ordIns, if_neg h]
      exact (ih.cons b).trans (List.Perm.swap a b t)

theorem isort_perm {α : Type} (le : α → α → Bool) :
    ∀ l : List α, List.Perm (isort le l) l := by
  intro l
  induction l with
  | nil => simp [isort]
  | cons a t ih => exact (ordIns_perm le a (isort le t)).trans (ih.cons a)

theorem isort_length {α : Type} (le : α → α → Bool) (l : List α) :
    (isort le l).length = l.length :=
  (isort_perm le l).length_eq

theorem mem_ordIns {α : Type} (le : α → α → Bool) (a x : α) (l : List α) :
    x ∈ ordIns le a l ↔ x = a ∨ x ∈ l := by
  rw [(ordIns_perm le a l).mem_iff, List.mem_cons]

theorem mem_isort {α : Type} (le : α → α → Bool) (x : α) (l : List α) :
    x ∈ isort le l ↔ x ∈ l :=
  (isort_perm le l).mem_iff

theorem ordIns_pairwise {α : Type} (le : α → α → Bool)
    (htot : ∀ a b, le a b = true ∨ le b a = true)
    (htrans : ∀ a b c, le a b = true → le b c = true → le a c = true) (a : α) :
    ∀ m : List α, List.Pairwise (fun x y => le x y = true) m →
      List.Pairwise (fun x y => le x y = true) (ordIns le a m) := by
  intro m
  induction m with
  | nil => intro _; simp [ordIns]
  | cons b t ih =>
    intro hm
    rw [List.pairwise_cons] at hm
    by_cases h : le a b = true
    · rw [ordIns, if_pos h]
      refine List.Pairwise.cons ?_ (List.Pairwise.cons hm.1 hm.2)
      intro y hy
      rcases List.mem_cons.mp hy with rfl | hyt
      · exact h
      · exact htrans a b y h (hm.1 y hyt)
    · rw [ordIns, if_neg h]
      refine List.Pairwise.cons ?_ (ih hm.2)
      intro y hy
      rcases (mem_ordIns le a y t).mp hy with heq | hyt
      · rw [heq]
        exact (htot a b).resolve_left h
      · exact hm.1 y hyt

theorem isort_pairwise {α : Type} (le : α → α → Bool)
    (htot : ∀ a b, le a b = true ∨ le b a = true)
    (htrans : ∀ a b c, le a b = true → le b c = true → le a c = true) :
    ∀ l : List α, List.Pairwise (fun x y => le x y = true) (isort le l) := by
  intro l
  induction l with
  | nil => simp [isort]
  | cons a t ih => exact ordIns_pairwise le htot htrans a (isort le t) ih

theorem ordIns_rank_pairwise (a : Nat × ℚ) :
    ∀ m : List (Nat × ℚ), List.Pairwise rankRel m → (∀ b ∈ m, a.1 < b.1) →
      List.Pairwise rankRel (ordIns simDesc a m) := by
  intro m
  induction m with
  | nil => intro _ _; simp [ordIns]
  | cons b t ih =>
    intro hm ha
    rw [List.pairwise_cons] at hm
    by_cases h : simDesc a b = true
    · rw [ordIns, if_pos h]
      have hba : b.2 ≤ a.2 := of_decide_eq_true h
      refine List.Pairwise.cons ?_ (List.Pairwise.cons hm.1 hm.2)
      intro y hy
      rcases List.mem_cons.mp hy with rfl | hyt
      · rcases lt_or_eq_of_le hba with hlt | heq
        · exact Or.inl hlt
        · exact Or.inr ⟨heq.symm, ha y (List.mem_cons_self y t)⟩
      · have hby : rankRel b y := hm.1 y hyt
        have hyb : y.2 ≤ b.2 := by
          rcases hby with h1 | h1
          · exact le_of_lt h1
          · exact le_of_eq h1.1.symm
        rcases lt_or_eq_of_le (le_trans hyb hba) with hlt | heq
        · exact Or.inl hlt
        · exact Or.inr ⟨heq.symm, ha y (List.mem_cons_of_mem b hyt)⟩
    · rw [ordIns, if_neg h]
      have hab : a.2 < b.2 := by
        refine lt_of_not_le (fun hle => h ?_)
        exact decide_eq_true hle
      refine List.Pairwise.cons ?_ (ih hm.2 (fun c hc => ha c (List.mem_cons_of_mem b hc)))
      intro y hy
      rcases (mem_ordIns simDesc a y t).mp hy with heq | hyt
      · rw [heq]
        exact Or.inl hab
      · exact hm.1 y hyt

theorem isort_rank_pairwise :
    ∀ l : List (Nat × ℚ), List.Pairwise (fun a b : Nat × ℚ => a.1 < b.1) l →
      List.Pairwise rankRel (isort simDesc l) := by
  intro l
  induction l with
  | nil => intro _; simp [isort]
  | cons a t ih =>
    intro hl
    rw [List.pairwise_cons] at hl
    refine ordIns_rank_pairwise a (isort simDesc t) (ih hl.2) ?_
    intro b hb
    exact hl.1 b ((mem_isort simDesc b t).mp hb)

theorem mem_enumFrom_le {α : Type} :
    ∀ (l : List α) (n : Nat) (p : Nat × α), p ∈ List.enumFrom n l → n ≤ p.1 := by
  intro l
  induction l with
  | nil => intro n p hp; exact absurd hp (List.not_mem_nil p)
  | cons a t ih =>
    intro n p hp
    rcases List.mem_cons.mp hp with rfl | hp2
    · exact le_refl n
    · exact le_trans (Nat.le_succ n) (ih (n + 1) p hp2)

theorem pairwise_fst_lt_enumFrom {α : Type} :
    ∀ (l : List α) (n : Nat),
      List.Pairwise (fun a b : Nat × α => a.1 < b.1) (List.enumFrom n l) := by
  intro l
  induction l with
  | nil => intro n; simp
  | cons a t ih =>
    intro n
    refine List.Pairwise.cons ?_ (ih (n + 1))
    intro p hp
    exact lt_of_lt_of_le (Nat.lt_succ_self n) (mem_enumFrom_le t (n + 1) p hp)

theorem pairwise_fst_lt_enum {α : Type} (l : List α) :
    List.Pairwise (fun a b : Nat × α => a.1 < b.1) l.enum :=
  pairwise_fst_lt_enumFrom l 0

/-! ### Properties of the title lookup, deduplication and rating scan -/

theorem queryIndex_eq_none (titles : List String) (t : String)
    (h : ∀ s ∈ titles, lowerStr s ≠ lowerStr t) : queryIndex titles t = none := by
  induction titles with
  | nil => rfl
  | cons s rest ih =>
    have hc : ¬ (lowerStr s == lowerStr t) = true :=
      fun hb => h s (List.mem_cons_self s rest) (eq_of_beq hb)
    rw [queryIndex, if_neg hc, ih (fun x hx => h x (List.mem_cons_of_mem s hx))]
    rfl

theorem queryIndex_first_match :
    ∀ (titles : List String) (t : String) (i : Nat), queryIndex titles t = some i →
      i < titles.length ∧ lowerStr (titles.getD i "") = lowerStr t ∧
        ∀ j, j < i → lowerStr (titles.getD j "") ≠ lowerStr t := by
  intro titles
  induction titles with
  | nil => intro t i h; exact absurd h (by simp [queryIndex])
  | cons s rest ih =>
    intro t i h
    by_cases hc : (lowerStr s == lowerStr t) = true
    · rw [queryIndex, if_pos hc] at h
      have hi : i = 0 := ((Option.some.injEq 0 i).mp h).symm
      subst hi
      exact ⟨Nat.succ_pos _, eq_of_beq hc, fun j hj => absurd hj (Nat.not_lt_zero j)⟩
    · rw [queryIndex, if_neg hc] at h
      cases hq : queryIndex rest t with
      | none => rw [hq] at h; exact absurd h (by simp)
      | some k =>
        rw [hq] at h
        have hik : k + 1 = i := by
          have := (Option.some.injEq (k + 1) i).mp (by simpa using h)
          exact this
        subst hik
        obtain ⟨h1, h2, h3⟩ := ih t k hq
        refine ⟨Nat.succ_lt_succ h1, h2, ?_⟩
        intro j hj
        cases j with
        | zero => exact fun habs => hc (beq_iff_eq.mpr habs)
        | succ m => exact h3 m (Nat.lt_of_succ_lt_succ hj)

theorem queryIndex_lt_length (titles : List String) (t : String) (i : Nat)
    (h : queryIndex titles t = some i) : i < titles.length :=
  (queryIndex_first_match titles t i h).1

theorem dedupAux_title_mem :
    ∀ (rows : List DRow) (seen : List String) (r : DRow), r ∈ rows →
      r.title ∈ seen ∨ r.title ∈ (dedupAux seen rows).map DRow.title := by
  intro rows
  induction rows with
  | nil => intro seen r hr; exact absurd hr (List.not_mem_nil r)
  | cons x rs ih =>
    intro seen r hr
    rw [dedupAux]
    by_cases hx : x.title ∈ seen
    · rw [if_pos hx]
      rcases List.mem_cons.mp hr with heq | hr2
      · exact Or.inl (heq ▸ hx)
      · exact ih seen r hr2
    · rw [if_neg hx]
      rcases List.mem_cons.mp hr with heq | hr2
      · exact Or.inr (by rw [List.map_cons, heq]; exact List.mem_cons_self _ _)
      · rcases ih (x.title :: seen) r hr2 with hs | hm
        · rcases List.mem_cons.mp hs with heq | hseen
          · exact Or.inr (by rw [List.map_cons, heq]; exact List.mem_cons_self _ _)
          · exact Or.inl hseen
        · exact Or.inr (by rw [List.map_cons]; exact List.mem_cons_of_mem _ hm)

theorem dedupAux_subset :
    ∀ (rows : List DRow) (seen : List String) (r : DRow), r ∈ dedupAux seen rows → r ∈ rows := by
  intro rows
  induction rows with
  | nil => intro seen r hr; exact absurd hr (by rw [dedupAux] at hr; exact List.not_mem_nil r)
  | cons x rs ih =>
    intro seen r hr
    rw [dedupAux] at hr
    by_cases hx : x.title ∈ seen
    · rw [if_pos hx] at hr
      exact List.mem_cons_of_mem x (ih seen r hr)
    · rw [if_neg hx] at hr
      rcases List.mem_cons.mp hr with heq | hr2
      · exact heq ▸ List.mem_cons_self x rs
      · exact List.mem_cons_of_mem x (ih (x.title :: seen) r hr2)

theorem scanNumber_eq_none_iff :
    ∀ l : List Char, scanNumber l = none ↔ ∀ c ∈ l, c.isDigit = false := by
  intro l
  induction l with
  | nil => simp [scanNumber]
  | cons c cs ih =>
    by_cases h : c.isDigit = true
    · rw [scanNumber, if_pos h]
      simp only [List.forall_mem_cons]
      constructor
      · intro habs; exact absurd habs (by simp)
      · intro ⟨h1, _⟩; rw [h] at h1; exact absurd h1 (by simp)
    · rw [scanNumber, if_neg h, ih]
      have hcf : c.isDigit = false := by
        revert h; cases c.isDigit <;> simp
      simp [List.forall_mem_cons, hcf]

theorem beq_char_false_of_digit (c x : Char) (h : c.isDigit = true)
    (hx : x.isDigit = false) : (c == x) = false := by
  cases hb : (c == x) with
  | false => rfl
  | true =>
    rw [eq_of_beq hb, hx] at h
    exact absurd h (by simp)

theorem digit_not_strip (c : Char) (h : c.isDigit = true) : pyStripChar c = false := by
  rw [pyStripChar,
    beq_char_false_of_digit c ' ' h (by decide),
    beq_char_false_of_digit c '\t' h (by decide),
    beq_char_false_of_digit c '\n' h (by decide),
    beq_char_false_of_digit c '\r' h (by decide),
    beq_char_false_of_digit c '\x0B' h (by decide),
    beq_char_false_of_digit c '\x0C' h (by decide),
    beq_char_false_of_digit c '\xA0' h (by decide)]
  rfl

theorem mem_dropWhile_of_neg {α : Type} (p : α → Bool) :
    ∀ (l : List α) (c : α), c ∈ l → p c = false → c ∈ l.dropWhile p := by
  intro l
  induction l with
  | nil => intro c h _; exact absurd h (List.not_mem_nil c)
  | cons a t ih =>
    intro c hc hpc
    rw [List.dropWhile_cons]
    by_cases hpa : p a = true
    · rw [if_pos hpa]
      rcases List.mem_cons.mp hc with heq | h2
      · rw [← heq, hpc] at hpa; exact absurd hpa (by simp)
      · exact ih c h2 hpc
    · rw [if_neg hpa]
      exact hc

theorem mem_pyStrip_of_digit (l : List Char) (c : Char) (hc : c ∈ l)
    (hd : c.isDigit = true) : c ∈ pyStrip l := by
  have h1 : pyStripChar c = false := digit_not_strip c hd
  rw [pyStrip, List.mem_reverse]
  refine mem_dropWhile_of_neg pyStripChar _ c ?_ h1
  rw [List.mem_reverse]
  exact mem_dropWhile_of_neg pyStripChar l c hc h1

theorem pyStrip_subset (l : List Char) (c : Char) (hc : c ∈ pyStrip l) : c ∈ l := by
  rw [pyStrip, List.mem_reverse] at hc
  have h1 := (List.dropWhile_sublist pyStripChar).subset hc
  rw [List.mem_reverse] at h1
  exact (List.dropWhile_sublist pyStripChar).subset h1

/-! ### The claims -/

/-- C1 (code bug): the claim — and the code's own comment "excluding itself" —
say the queried record is never in the output, but `sorted(...)[1:6]` only
drops the first element of the similarity-sorted list.  With two records
carrying identical tags (cosine similarity 1.0 in both directions), querying
the record with the larger index puts the tied smaller-index record first in
the stable sort, so the slice keeps the queried record: the output for "Beta"
is exactly ["Beta"]. -/
theorem recommend_includes_queried_title_on_tie :
    "Beta" ∈ (["Alpha", "Beta"] : List String) ∧
      recommend ["Alpha", "Beta"] [[1, 1], [1, 1]] "Beta" = ["Beta"] := by
  decide

/-- C2 counterexample: with an absent Summary the derived tag string starts
with "nan", not with the empty string the claim prescribes — the f-string
formats the missing-value marker as "nan". -/
theorem makeTags_ne_claim_on_missing_summary :
    makeTags Cell.na (Cell.str "Action") (Cell.str "Boys-Love") = "nan action boys love" ∧
      makeTags Cell.na (Cell.str "Action") (Cell.str "Boys-Love") ≠
        makeTagsClaim Cell.na (Cell.str "Action") (Cell.str "Boys-Love") := by
  decide

/-- C2 (amended): the Tags field is the lowercased space-separated
concatenation of Summary, Genres and Themes (Themes with hyphens replaced by
spaces), where every absent source field contributes the literal string "nan"
rather than the empty string: the code equals the claimed formula applied
after substituting the string "nan" for each absent cell. -/
theorem makeTags_eq_claim_with_nan (s g t : Cell) :
    makeTags s g t = makeTagsClaim (naToNanStr s) (naToNanStr g) (naToNanStr t) := by
  cases s <;> cases g <;> cases t <;> rfl

/-- C3 counterexample: the code deduplicates by Title BEFORE dropping records
with no parseable rating, the claim states the reverse order.  With two rows
titled "A" where only the second has a rating, the code keeps the unrated
first row at dedup and then drops it, returning nothing, while the claimed
order returns the rated row. -/
theorem topDramas_order_counterexample :
    getTopDramasByCountry
        [⟨"A", Cell.str "South Korea", none⟩, ⟨"A", Cell.str "South Korea", some 8⟩]
        "Korea" 5 = [] ∧
      getTopDramasSpecOrder
        [⟨"A", Cell.str "South Korea", none⟩, ⟨"A", Cell.str "South Korea", some 8⟩]
        "Korea" 5 = [⟨"A", Cell.str "South Korea", some 8⟩] := by
  decide

/-- C3 (amended): `top_dramas(country, n)` returns at most `n` records, every
returned record's Country contains the country name as a case-insensitive
substring, every returned record has a present NumericRating, and the result
is sorted by NumericRating descending; the code deduplicates by Title before
excluding records with no parseable NumericRating (the reverse of the spec's
stated step order). -/
theorem topDramas_guarantees (df : List DRow) (name : String) (n : Nat) :
    (getTopDramasByCountry df name n).length ≤ n ∧
      (∀ r ∈ getTopDramasByCountry df name n, countryContains r.country name = true) ∧
      (∀ r ∈ getTopDramasByCountry df name n, r.numericRating.isSome = true) ∧
      List.Pairwise (fun a b => ratingD b ≤ ratingD a) (getTopDramasByCountry df name n) := by
  have hmem : ∀ r ∈ getTopDramasByCountry df name n,
      r ∈ (dedupByTitle (df.filter (fun x => countryContains x.country name))).filter
        (fun x => x.numericRating.isSome) := by
    intro r hr
    rw [getTopDramasByCountry] at hr
    exact (mem_isort ratingDesc r _).mp (List.mem_of_mem_take hr)
  refine ⟨?_, ?_, ?_, ?_⟩
  · rw [getTopDramasByCountry]
    exact List.length_take_le n _
  · intro r hr
    have h1 := (List.mem_filter.mp (hmem r hr)).1
    have h2 := dedupAux_subset _ [] r h1
    exact (List.mem_filter.mp h2).2
  · intro r hr
    exact (List.mem_filter.mp (hmem r hr)).2
  · have htot : ∀ a b : DRow, ratingDesc a b = true ∨ ratingDesc b a = true := by
      intro a b
      rcases le_total (ratingD b) (ratingD a) with h | h
      · exact Or.inl (decide_eq_true h)
      · exact Or.inr (decide_eq_true h)
    have htrans : ∀ a b c : DRow,
        ratingDesc a b = true → ratingDesc b c = true → ratingDesc a c = true := by
      intro a b c h1 h2
      exact decide_eq_true (le_trans (of_decide_eq_true h2) (of_decide_eq_true h1))
    rw [getTopDramasByCountry]
    exact (List.Pairwise.sublist (List.take_sublist n _)
      (isort_pairwise ratingDesc htot htrans _)).imp (fun h => of_decide_eq_true h)

/-- C3 witness: a one-row Korean dataframe with a rating; the returned row's
Country passes the case-insensitive substring filter. -/
theorem topDramas_guarantees_witness :
    ((⟨"A", Cell.str "South Korea", some 8⟩ : DRow) ∈
        getTopDramasByCountry [⟨"A", Cell.str "South Korea", some 8⟩] "Korea" 5) ∧
      countryContains (Cell.str "South Korea") "Korea" = true :=
  ⟨by decide,
    (topDramas_guarantees [⟨"A", Cell.str "South Korea", some 8⟩] "Korea" 5).2.1
      ⟨"A", Cell.str "South Korea", some 8⟩ (by decide)⟩

/-- C4: `extract_numeric_rating` on strings — the three example values hold
exactly (7.5, absence, 8.0), and the scan yields no value precisely when the
string contains no digit at all (stripping and no-break-space normalization
never touch digits). -/
theorem extractNumericRating_spec :
    extractNumericRatingStr "7.5/10 (MDL)" = some (7.5 : ℚ) ∧
      extractNumericRatingStr "N/A" = none ∧
      extractNumericRatingStr "  8\xA0/10" = some (8 : ℚ) ∧
      ∀ s : String, (extractNumericRatingStr s = none ↔ ∀ c ∈ s.data, c.isDigit = false) := by
  refine ⟨?_, by decide, by decide, ?_⟩
  · rw [show extractNumericRatingStr "7.5/10 (MDL)" = some ((7 : ℚ) + 5 / 10 ^ 1) from rfl]
    norm_num
  · intro s
    rw [extractNumericRatingStr]
    constructor
    · intro hnone c hc
      by_contra hdig
      have hd : c.isDigit = true := by revert hdig; cases c.isDigit <;> simp
      have h1 : c ∈ pyStrip s.data := mem_pyStrip_of_digit s.data c hc hd
      have h2 : c ∈ replNbsp (pyStrip s.data) := by
        rw [replNbsp]
        refine List.mem_map.mpr ⟨c, h1, ?_⟩
        simp [beq_char_false_of_digit c '\xA0' hd (by decide)]
      have h3 := (scanNumber_eq_none_iff _).mp hnone c h2
      rw [h3] at hd
      exact absurd hd (by simp)
    · intro hall
      refine (scanNumber_eq_none_iff _).mpr ?_
      intro c hc
      rw [replNbsp] at hc
      rcases List.mem_map.mp hc with ⟨d, hd, hfd⟩
      by_cases hb : (d == '\xA0') = true
      · rw [if_pos hb] at hfd
        rw [← hfd]; decide
      · rw [if_neg hb] at hfd
        rw [← hfd]
        exact hall d (pyStrip_subset s.data d hd)

/-- C4 witness: the digit-free string "N/A" satisfies the characterization and
yields no value. -/
theorem extractNumericRating_spec_witness :
    (∀ c ∈ "N/A".data, c.isDigit = false) ∧ extractNumericRatingStr "N/A" = none :=
  ⟨by decide, (extractNumericRating_spec.2.2.2 "N/A").mpr (by decide)⟩

/-- C5 counterexample: on a 1.0-tie the output is not the top of the ranking
of the OTHER records — querying "Sun" returns ["Sun"] while the claimed
ranking of the others starts with "Moon". -/
theorem recommend_ne_rank_others_on_tie :
    recommend ["Moon", "Sun"] [[1, 1], [1, 1]] "Sun" ≠
      recommendClaim ["Moon", "Sun"] [[1, 1], [1, 1]] "Sun" := by
  decide

/-- C5 (amended): when the queried title is found at index `i`, the code ranks
ALL records (the query included) of similarity row `i` by similarity value
descending with ties broken by original record index ascending — the stable
sort `rankAll` is a permutation of the enumerated row that is pairwise ordered
by `rankRel` — and the output lists the titles of that ranking with its FIRST
element (not necessarily the queried index) removed, truncated to five.  Only
when the queried record is the unique maximum of its row does this coincide
with the claim's ranking of the other records. -/
theorem recommend_found_ranking (titles : List String) (sim : List (List ℚ)) (t : String)
    (i : Nat) (h : queryIndex titles t = some i) :
    recommend titles sim t =
        (((rankAll (sim.getD i [])).drop 1).take 5).map (fun p => titles.getD p.1 "") ∧
      List.Perm (rankAll (sim.getD i [])) (sim.getD i []).enum ∧
      List.Pairwise rankRel (rankAll (sim.getD i [])) := by
  refine ⟨?_, ?_, ?_⟩
  · rw [recommend, h]
  · rw [rankAll]
    exact isort_perm simDesc _
  · rw [rankAll]
    exact isort_rank_pairwise _ (pairwise_fst_lt_enum _)

/-- C5 witness: a two-record instance where the query is found at index 1. -/
theorem recommend_found_ranking_witness :
    queryIndex ["A", "B"] "B" = some 1 ∧
      recommend ["A", "B"] [[1, 0], [0, 1]] "B" =
        (((rankAll (([[1, 0], [0, 1]] : List (List ℚ)).getD 1 [])).drop 1).take 5).map
          (fun p => (["A", "B"] : List String).getD p.1 "") :=
  ⟨by decide, (recommend_found_ranking ["A", "B"] [[1, 0], [0, 1]] "B" 1 (by decide)).1⟩

/-! ### Cosine similarity properties (claim C6) -/

theorem cosineSim_comm {n : Nat} (u v : Fin n → ℚ) : cosineSim u v = cosineSim v u := by
  rw [cosineSim, cosineSim]
  by_cases h : u = 0 ∨ v = 0
  · rw [if_pos h, if_pos (Or.symm h)]
  · rw [if_neg h, if_neg (fun hc => h (Or.symm hc))]
    have hd : dotp u v = dotp v u := by
      rw [dotp, dotp]
      exact Finset.sum_congr rfl (fun i _ => mul_comm _ _)
    rw [hd, mul_comm]

theorem cosineSim_self_eq_one {n : Nat} (v : Fin n → ℚ) (hv : v ≠ 0) :
    cosineSim v v = 1 := by
  have hpos : 0 < dotp v v := by
    obtain ⟨k, hk⟩ := Function.ne_iff.mp hv
    rw [dotp]
    refine Finset.sum_pos' (fun i _ => mul_self_nonneg (v i)) ⟨k, Finset.mem_univ k, ?_⟩
    refine mul_self_pos.mpr ?_
    simpa using hk
  rw [cosineSim, if_neg (fun hc => hv (hc.elim id id))]
  have hq : (0 : ℝ) < ((dotp v v : ℚ) : ℝ) := by exact_mod_cast hpos
  rw [Real.mul_self_sqrt hq.le]
  exact div_self hq.ne'

/-- C6: the similarity matrix is symmetric; the diagonal entry of a record
whose tag field contains at least one vocabulary term (equivalently, whose
term-frequency vector is nonzero) is exactly 1 in real arithmetic (the
"approximately 1.0" of the claim is exact once floats are modelled exactly);
and any pair involving a zero term-frequency vector yields 0, not NaN,
because the zero-norm case is guarded. -/
theorem cosine_matrix_properties :
    (∀ (vocab tagsList : List String) (i j : Nat),
        simMatrix vocab tagsList i j = simMatrix vocab tagsList j i) ∧
      (∀ (vocab : List String) (tags : String),
          (∃ t, t ∈ vocab ∧ t ∈ tokenize tags) →
            cosineSim (tfVec vocab tags) (tfVec vocab tags) = 1) ∧
      ∀ (n : Nat) (u v : Fin n → ℚ), u = 0 ∨ v = 0 → cosineSim u v = 0 := by
  refine ⟨?_, ?_, ?_⟩
  · intro vocab tagsList i j
    rw [simMatrix, simMatrix]
    exact cosineSim_comm _ _
  · intro vocab tags h
    obtain ⟨t, htv, htt⟩ := h
    obtain ⟨k, hk⟩ := List.get_of_mem htv
    refine cosineSim_self_eq_one _ ?_
    intro h0
    have hzero : tfVec vocab tags k = 0 := by rw [h0]; rfl
    rw [tfVec] at hzero
    rw [hk] at hzero
    rw [Nat.cast_eq_zero] at hzero
    have hpos : 0 < termCount t (tokenize tags) := by
      rw [termCount]
      refine List.length_pos.mpr (List.ne_nil_of_mem (List.mem_filter.mpr ⟨htt, ?_⟩))
      simp
    omega
  · intro n u v h
    rw [cosineSim, if_pos h]

/-- C6 witness: a two-record instance, one record holding the vocabulary term
"love", the other an empty tag field with the zero vector. -/
theorem cosine_matrix_properties_witness :
    simMatrix ["love"] ["love stori", ""] 0 1 = simMatrix ["love"] ["love stori", ""] 1 0 ∧
      (∃ t, t ∈ (["love"] : List String) ∧ t ∈ tokenize "love stori") ∧
      cosineSim (tfVec ["love"] "love stori") (tfVec ["love"] "love stori") = 1 ∧
      tfVec ["love"] "" = 0 ∧
      cosineSim (tfVec ["love"] "") (tfVec ["love"] "love stori") = 0 :=
  ⟨cosine_matrix_properties.1 ["love"] ["love stori", ""] 0 1, by decide,
    cosine_matrix_properties.2.1 ["love"] "love stori" (by decide), by decide,
    cosine_matrix_properties.2.2 _ _ _ (Or.inl (by decide))⟩

/-- C7: a title matching no record under case-insensitive exact comparison
yields the empty list (the lookup filter is empty), not an error. -/
theorem recommend_not_found_empty (titles : List String) (sim : List (List ℚ)) (t : String)
    (h : ∀ s ∈ titles, lowerStr s ≠ lowerStr t) : recommend titles sim t = [] := by
  rw [recommend, queryIndex_eq_none titles t h]

/-- C7 witness: "Beta" is absent from a one-record set. -/
theorem recommend_not_found_empty_witness :
    (∀ s ∈ (["Alpha"] : List String), lowerStr s ≠ lowerStr "Beta") ∧
      recommend ["Alpha"] [[1]] "Beta" = [] :=
  ⟨by decide, recommend_not_found_empty ["Alpha"] [[1]] "Beta" (by decide)⟩

/-- C8: for a well-formed square similarity matrix, the output of `recommend`
has length at most 5 and at most (record count − 1): the `[1:6]` slice of the
sorted full row keeps `min 5 (n − 1)` entries, and the not-found case returns
the empty list. -/
theorem recommend_length_bounds (titles : List String) (sim : List (List ℚ)) (t : String)
    (h1 : sim.length = titles.length) (h2 : ∀ row ∈ sim, row.length = titles.length) :
    (recommend titles sim t).length ≤ 5 ∧
      (recommend titles sim t).length ≤ titles.length - 1 := by
  cases hq : queryIndex titles t with
  | none =>
    rw [recommend, hq]
    simp
  | some i =>
    have hi : i < sim.length := by
      rw [h1]
      exact queryIndex_lt_length titles t i hq
    have hrow : sim.getD i [] ∈ sim := by
      rw [List.getD_eq_getElem sim [] hi]
      exact List.getElem_mem hi
    have hr : (rankAll (sim.getD i [])).length = titles.length := by
      rw [rankAll, isort_length, List.enum_length]
      exact h2 _ hrow
    rw [recommend, hq]
    simp only [List.length_map, List.length_take, List.length_drop, hr]
    omega

/-- C8 witness: a two-record instance with its 2×2 identity-like matrix. -/
theorem recommend_length_bounds_witness :
    (∀ row ∈ ([[1, 0], [0, 1]] : List (List ℚ)), row.length = (["A", "B"] : List String).length) ∧
      (recommend ["A", "B"] [[1, 0], [0, 1]] "A").length ≤ 5 ∧
      (recommend ["A", "B"] [[1, 0], [0, 1]] "A").length ≤ (["A", "B"] : List String).length - 1 :=
  ⟨by decide, recommend_length_bounds ["A", "B"] [[1, 0], [0, 1]] "A" (by decide) (by decide)⟩

/-- C9: `extract_numeric_rating` returns `none` for every non-string cell —
the numeric path is guarded by the `isinstance(rating, str)` check, so the
NaN of a missing rating (and any other non-string) falls through to `None`
without raising. -/
theorem extractNumericRating_nonstring_none (c : Cell) (h : ∀ s, c ≠ Cell.str s) :
    extractNumericRating c = none := by
  cases c with
  | str s => exact absurd rfl (h s)
  | na => rfl

/-- C9 witness: the NaN cell is not a string and maps to `none`. -/
theorem extractNumericRating_nonstring_none_witness :
    (∀ s, Cell.na ≠ Cell.str s) ∧ extractNumericRating Cell.na = none :=
  ⟨fun _ h => Cell.noConfusion h,
    extractNumericRating_nonstring_none Cell.na (fun _ h => Cell.noConfusion h)⟩

/-- C10: deduplication keeps every distinct exact Title (so two stored titles
differing only in casing both survive, since `drop_duplicates` compares exact
Title strings), and the lookup index returned by the case-insensitive title
match is the SMALLEST matching index: position `i` matches and every position
before it does not. -/
theorem query_uses_smallest_index :
    (∀ (rows : List DRow) (r : DRow), r ∈ rows →
        r.title ∈ (dedupByTitle rows).map DRow.title) ∧
      ∀ (titles : List String) (t : String) (i : Nat), queryIndex titles t = some i →
        i < titles.length ∧ lowerStr (titles.getD i "") = lowerStr t ∧
          ∀ j, j < i → lowerStr (titles.getD j "") ≠ lowerStr t := by
  constructor
  · intro rows r hr
    rcases dedupAux_title_mem rows [] r hr with h | h
    · exact absurd h (List.not_mem_nil _)
    · exact h
  · exact queryIndex_first_match

/-- C10 witness: the rows "Love" and "LOVE" both survive deduplication, and
the query "lOvE" resolves to the smaller index 0. -/
theorem query_uses_smallest_index_witness :
    ((⟨"LOVE", Cell.na, none⟩ : DRow) ∈
          ([⟨"Love", Cell.na, none⟩, ⟨"LOVE", Cell.na, none⟩] : List DRow) ∧
        "LOVE" ∈ (dedupByTitle [⟨"Love", Cell.na, none⟩, ⟨"LOVE", Cell.na, none⟩]).map
          DRow.title) ∧
      queryIndex ["Love", "LOVE"] "lOvE" = some 0 ∧
        lowerStr ((["Love", "LOVE"] : List String).getD 0 "") = lowerStr "lOvE" :=
  ⟨⟨by decide, query_uses_smallest_index.1 _ ⟨"LOVE", Cell.na, none⟩ (by decide)⟩,
    by decide,
    (query_uses_smallest_index.2 ["Love", "LOVE"] "lOvE" 0 (by decide)).2.1⟩

end MyMatcha
